import Mathlib

/-!
Verification development for the codeown repository: a tool that derives a
CODEOWNERS-style ownership map from git commit history.  The definitions below
are a shallow embedding of `src/lib/config.ts` (ConfigManager),
`src/lib/generator.ts` (CodeOwnersGenerator) and the analysis/cancellation flow
of `src/components/CodeOwnersApp.tsx`.  JavaScript objects with string keys are
modelled as association lists in insertion order; JavaScript's stable
`Array.prototype.sort` with a consistent comparator is modelled by a stable
insertion sort; `Map` and `Set` are modelled by association lists and
membership lists updated exactly where the source updates them.
-/

/-- JavaScript `String.prototype.split` with a one-character separator,
accumulator-based helper.  `"".split(sep)` gives `[""]`, e.g.
`"a//b".split("/") = ["a", "", "b"]`. -/
def jsSplitGo (sep : Char) : List Char → List Char → List String
  | acc, [] => [String.mk acc.reverse]
  | acc, c :: cs =>
    if c = sep then String.mk acc.reverse :: jsSplitGo sep [] cs
    else jsSplitGo sep (c :: acc) cs

/-- JavaScript `s.split(sep)` for a one-character separator. -/
def jsSplit (s : String) (sep : Char) : List String :=
  jsSplitGo sep [] s.toList

/-- All suffixes of a list, longest first (including the list itself and `[]`). -/
def tailsOf {α : Type} : List α → List (List α)
  | [] => [[]]
  | x :: xs => (x :: xs) :: tailsOf xs

/-- Modelled from the spec: the `minimatch` library is an external dependency
(not part of this repository's sources).  Per §4.1 of the spec, `*` matches any
character sequence within one path segment and `?` matches one character; a
pattern without wildcards matches only literally.  This matches one
'/'-separated segment of a path against one segment of a pattern. -/
def matchSeg : List Char → List Char → Bool
  | [], s => s.isEmpty
  | '*' :: ps, s => (tailsOf s).any (fun t => matchSeg ps t)
  | '?' :: ps, s =>
    match s with
    | [] => false
    | _ :: s2 => matchSeg ps s2
  | p :: ps, s =>
    match s with
    | [] => false
    | c :: s2 => p == c && matchSeg ps s2

/-- Modelled from the spec: segment-list matching of `minimatch`, where a `**`
pattern segment matches any number (possibly zero) of path segments and every
other pattern segment must match exactly one path segment via `matchSeg`. -/
def matchSegs : List String → List String → Bool
  | [], segs => segs.isEmpty
  | "**" :: ps, segs => (tailsOf segs).any (fun t => matchSegs ps t)
  | p :: ps, segs =>
    match segs with
    | [] => false
    | s :: ss => matchSeg p.toList s.toList && matchSegs ps ss

/-- Modelled from the spec: `minimatch(filepath, pattern)` — shell-glob path
matching with `*` within a segment and `**` across segments (spec §4.1).  The
argument order follows the call sites in `config.ts`. -/
def minimatch (filepath pattern : String) : Bool :=
  matchSegs (jsSplit pattern '/') (jsSplit filepath '/')

/-- Whether the character list contains two consecutive stars — the JavaScript
test `pattern.includes("**")` from `getPatternSpecificity`. -/
def hasStarStar : List Char → Bool
  | '*' :: '*' :: _ => true
  | _ :: cs => hasStarStar cs
  | [] => false

/-- The configuration document of `config.ts` (`CodeownConfig`): every field is
optional.  JavaScript objects (`overrides`, `defaultOwners`) are association
lists in key-insertion order; keys are unique in a JS object. -/
structure CodeownConfig where
  members : Option (List String)
  includeList : Option (List String)
  exclude : Option (List String)
  overrides : Option (List (String × List String))
  defaultOwners : Option (List (String × List String))
  maxOwners : Option Nat
  minOwners : Option Nat
  projectOwners : Option (List String)
deriving DecidableEq

/-- The configuration with every field absent (no `codeown.json`). -/
def emptyConfig : CodeownConfig :=
  ⟨none, none, none, none, none, none, none, none⟩

/-- `ConfigManager.getMaxOwners`: `this.config.maxOwners || 3`.  JavaScript `||`
falls through on the falsy value `0` as well as on an absent field. -/
def getMaxOwners (cfg : CodeownConfig) : Nat :=
  match cfg.maxOwners with
  | some n => if n = 0 then 3 else n
  | none => 3

/-- `ConfigManager.getMinOwners`: `this.config.minOwners || 1`. -/
def getMinOwners (cfg : CodeownConfig) : Nat :=
  match cfg.minOwners with
  | some n => if n = 0 then 1 else n
  | none => 1

/-- `ConfigManager.getProjectOwners`: `this.config.projectOwners || []`
(an array, even empty, is truthy, so only absence falls through). -/
def getProjectOwners (cfg : CodeownConfig) : List String :=
  match cfg.projectOwners with
  | some owners => owners
  | none => []

/-- `ConfigManager.shouldIncludeContributor(email, username)`: true when no
members list is configured or it is empty, otherwise true when the list
contains the username or the email. -/
def shouldIncludeContributor (cfg : CodeownConfig) (email username : String) : Bool :=
  match cfg.members with
  | none => true
  | some members =>
    if members.length = 0 then true
    else members.contains username || members.contains email

/-- JavaScript `s.endsWith("/")`: the last character is a slash. -/
def endsWithSlash (s : String) : Bool :=
  match s.toList.getLast? with
  | some c => c == '/'
  | none => false

/-- JavaScript `s.startsWith("@")`: the first character is an at sign. -/
def startsWithAt (s : String) : Bool :=
  match s.toList with
  | c :: _ => c == '@'
  | [] => false

/-- The pattern normalization done inline in `shouldIncludeFile`: a pattern
ending in `/` becomes `pattern ++ "**/*"`; a pattern containing `*` is kept;
any other pattern (a bare directory-like pattern) becomes
`pattern ++ "/**/*"`. -/
def normalizePattern (pattern : String) : String :=
  if endsWithSlash pattern then pattern ++ "**/*"
  else if pattern.toList.contains '*' then pattern
  else pattern ++ "/**/*"

/-- The per-pattern test used by `shouldIncludeFile` for both the include and
the exclude lists: `minimatch(filepath, normalizedPattern) ||
minimatch(filepath, pattern)`. -/
def matchesPattern (filepath pattern : String) : Bool :=
  minimatch filepath (normalizePattern pattern) || minimatch filepath pattern

/-- `ConfigManager.shouldIncludeFile`: false when an include list is configured
and non-empty and no include pattern matches, false when an exclude list is
configured and non-empty and some exclude pattern matches, true otherwise. -/
def shouldIncludeFile (cfg : CodeownConfig) (filepath : String) : Bool :=
  let inclOk :=
    match cfg.includeList with
    | some incl =>
      if incl.length > 0 then incl.any (fun pattern => matchesPattern filepath pattern)
      else true
    | none => true
  if !inclOk then false
  else
    match cfg.exclude with
    | some excl =>
      if excl.length > 0 then !(excl.any fun pattern => matchesPattern filepath pattern)
      else true
    | none => true

/-- `ConfigManager.getPatternSpecificity`: +1000 when the pattern has neither
`*` nor `?`; +10 per '/'-split segment; −5 per `*` occurrence; −50 when the
pattern contains the substring `**`. -/
def getPatternSpecificity (pattern : String) : Int :=
  let score : Int := 0
  let score := if !(pattern.toList.contains '*') && !(pattern.toList.contains '?')
    then score + 1000 else score
  let depth := (jsSplit pattern '/').length
  let score := score + (depth : Int) * 10
  let wildcards := (pattern.toList.filter (· == '*')).length
  let score := score - (wildcards : Int) * 5
  let score := if hasStarStar pattern.toList then score - 50 else score
  score

/-- The specificity formula as claim C6 words it: the −50 penalty applies only
when the pattern contains a `**` segment, i.e. a whole '/'-separated component
equal to `"**"` (the code instead tests for the substring `**` anywhere). -/
def specificityPerClaim (pattern : String) : Int :=
  (if !(pattern.toList.contains '*') && !(pattern.toList.contains '?')
    then (1000 : Int) else 0)
  + 10 * ((jsSplit pattern '/').length : Int)
  - 5 * ((pattern.toList.filter (· == '*')).length : Int)
  - (if (jsSplit pattern '/').contains "**" then (50 : Int) else 0)

/-- JavaScript's stable `Array.prototype.sort(cmp)` for a consistent comparator
(negative means the first argument sorts earlier): modelled by Mathlib's stable
insertion sort on the relation `cmp a b ≤ 0`.  For a consistent comparator the
stable sorted result is unique, so any stable sort models the JS one. -/
def sortByCmp {α : Type} (cmp : α → α → Int) (l : List α) : List α :=
  List.insertionSort (fun a b => cmp a b ≤ 0) l

/-- The pattern ranking used by `getOverrideOwners` and `getDefaultOwners`:
`Object.keys(map).sort((a, b) => specificity(b) - specificity(a))` — descending
by specificity, ties keeping insertion order (JS sort is stable). -/
def rankPatterns (patterns : List String) : List String :=
  sortByCmp (fun a b => getPatternSpecificity b - getPatternSpecificity a) patterns

/-- `ConfigManager.getOverrideOwners(filepath)`: null without an overrides map,
otherwise the owner list of the first pattern, in descending-specificity order,
that `minimatch`-matches the path (no normalization here). -/
def getOverrideOwners (cfg : CodeownConfig) (filepath : String) : Option (List String) :=
  match cfg.overrides with
  | none => none
  | some ovr =>
    let sortedPatterns := rankPatterns (ovr.map Prod.fst)
    match sortedPatterns.find? (fun pattern => minimatch filepath pattern) with
    | some pattern => List.lookup pattern ovr
    | none => none

/-- `ConfigManager.getDefaultOwners(filepath)`: same lookup as
`getOverrideOwners` against the `defaultOwners` map. -/
def getDefaultOwners (cfg : CodeownConfig) (filepath : String) : Option (List String) :=
  match cfg.defaultOwners with
  | none => none
  | some defs =>
    let sortedPatterns := rankPatterns (defs.map Prod.fst)
    match sortedPatterns.find? (fun pattern => minimatch filepath pattern) with
    | some pattern => List.lookup pattern defs
    | none => none

/-- `CodeOwnersGenerator.extractUsername`: the part of the email before the
first `@` (JavaScript `email.split("@")[0]`). -/
def extractUsername (email : String) : String :=
  (jsSplit email '@').headD ""

/-- The expression `this.emailToUsername.get(email) || email.split("@")[0]`
used throughout `generator.ts`: the memoized username, falling back (also past
a falsy empty string) to the part of the email before `@`.  The `Map` is an
association list in insertion order. -/
def getUsername (e2u : List (String × String)) (email : String) : String :=
  match List.lookup email e2u with
  | some u => if u = "" then extractUsername email else u
  | none => extractUsername email

/-- The `validContributors` computation of `generateCodeowners` (and,
identically, of `getOwnershipStats`): the tally entries whose contributor
passes the members filter, stably sorted by commit count descending
(`.sort(([, a], [, b]) => b - a)`). -/
def validContribs (cfg : CodeownConfig) (e2u : List (String × String))
    (contributors : List (String × Nat)) : List (String × Nat) :=
  sortByCmp (fun a b => (b.2 : Int) - (a.2 : Int))
    (contributors.filter fun ec => shouldIncludeContributor cfg ec.1 (getUsername e2u ec.1))

/-- The owner-selection loop of `generateCodeowners`: walk the first
`maxOwners` valid contributors and keep the username of each one whose commit
count reaches the `minCommits` threshold. -/
def selectOwners (cfg : CodeownConfig) (minCommits : Nat) (e2u : List (String × String))
    (contributors : List (String × Nat)) : List String :=
  (((validContribs cfg e2u contributors).take (getMaxOwners cfg)).filter
      (fun p => decide (minCommits ≤ p.2))).map
    (fun p => getUsername e2u p.1)

/-- The `defaultOwners` supplementation loop of `generateCodeowners`: push each
configured default owner not yet in `ownersSet`, adding it to the set, and stop
as soon as `minOwners` is reached.  Returns the grown owner list and set. -/
def addDefaults (minOwners : Nat) :
    List String → List String → List String → List String × List String
  | owners, set, [] => (owners, set)
  | owners, set, d :: ds =>
    if set.contains d then addDefaults minOwners owners set ds
    else if minOwners ≤ (owners ++ [d]).length then (owners ++ [d], set ++ [d])
    else addDefaults minOwners (owners ++ [d]) (set ++ [d]) ds

/-- The `projectOwners` supplementation loop of `generateCodeowners`: push each
project owner not in `ownersSet` and stop once `minOwners` is reached.  Note
the source never adds the pushed owner to `ownersSet` in this loop. -/
def addProject (minOwners : Nat) :
    List String → List String → List String → List String
  | owners, _, [] => owners
  | owners, set, p :: ps =>
    if set.contains p then addProject minOwners owners set ps
    else if minOwners ≤ (owners ++ [p]).length then owners ++ [p]
    else addProject minOwners (owners ++ [p]) set ps

/-- The supplementation block of `generateCodeowners` (run when the selected
owner list is non-empty but shorter than `minOwners`): first the per-file
default owners, then — if still short — the project owners. -/
def supplementOwners (minOwners : Nat) (defaults : Option (List String))
    (projectOwners : List String) (owners : List String) : List String :=
  let set := owners
  let step1 :=
    match defaults with
    | some ds => if ds.length > 0 then addDefaults minOwners owners set ds else (owners, set)
    | none => (owners, set)
  if step1.1.length < minOwners ∧ projectOwners.length > 0 then
    addProject minOwners step1.1 step1.2 projectOwners
  else step1.1

/-- The per-file body of the first `generateCodeowners` pass, for one
`fileStats` entry: an override wins verbatim; otherwise contributors are
filtered, sorted, capped and thresholded, supplemented when non-empty but
short of `minOwners`, and the file is dropped when no owner remains. -/
def resolveFileOwners (cfg : CodeownConfig) (minCommits : Nat)
    (e2u : List (String × String)) (filepath : String)
    (contributors : List (String × Nat)) : Option (List String) :=
  match getOverrideOwners cfg filepath with
  | some overrideOwners => some overrideOwners
  | none =>
    if contributors.length = 0 then none
    else if (validContribs cfg e2u contributors).length = 0 then none
    else
      let owners0 := selectOwners cfg minCommits e2u contributors
      let owners1 :=
        if 0 < owners0.length ∧ owners0.length < getMinOwners cfg then
          supplementOwners (getMinOwners cfg) (getDefaultOwners cfg filepath)
            (getProjectOwners cfg) owners0
        else owners0
      if 0 < owners1.length then some owners1 else none

/-- One emitted `(filepath, owners)` entry of `generateCodeowners`
(the optional `count` field of the source's array type is never set). -/
structure FileEntry where
  filepath : String
  owners : List String
deriving DecidableEq

/-- The `fileOwners` array of `generateCodeowners` before sorting: the first
pass resolves every `fileStats` entry; the second pass (only when an overrides
map is configured) adds, for every tracked file absent from `fileStats`, its
override owners when an override pattern matches. -/
def computeFileOwners (cfg : CodeownConfig) (minCommits : Nat)
    (e2u : List (String × String)) (fileStats : List (String × List (String × Nat)))
    (allFiles : List String) : List FileEntry :=
  let firstPass := fileStats.filterMap fun entry =>
    (resolveFileOwners cfg minCommits e2u entry.1 entry.2).map
      fun owners => FileEntry.mk entry.1 owners
  let secondPass :=
    match cfg.overrides with
    | none => []
    | some _ =>
      allFiles.filterMap fun filepath =>
        if (List.lookup filepath fileStats).isSome then none
        else (getOverrideOwners cfg filepath).map fun owners => FileEntry.mk filepath owners
  firstPass ++ secondPass

/-- The `fileOwners.sort((a, b) => a.filepath.localeCompare(b.filepath))` step:
`localeCompare` is the runtime's locale collation, passed in as `cmp`. -/
def sortedFileOwners (cfg : CodeownConfig) (minCommits : Nat)
    (e2u : List (String × String)) (fileStats : List (String × List (String × Nat)))
    (allFiles : List String) (cmp : String → String → Int) : List FileEntry :=
  sortByCmp (fun a b => cmp a.filepath b.filepath)
    (computeFileOwners cfg minCommits e2u fileStats allFiles)

/-- Three-way lexicographic comparison of character lists (by code point). -/
def lexCmpChars : List Char → List Char → Int
  | [], [] => 0
  | [], _ :: _ => -1
  | _ :: _, [] => 1
  | a :: as, b :: bs => if a < b then -1 else if b < a then 1 else lexCmpChars as bs

/-- Modelled from the spec: `String.prototype.localeCompare` is runtime locale
collation; the spec (§4.5, §8) takes the resulting order to be lexicographic on
the file path, so the comparator is modelled as lexicographic comparison. -/
def lexCmp (a b : String) : Int :=
  lexCmpChars a.toList b.toList

/-- The owner rendering of `generateCodeowners`:
`owner.startsWith("@") ? owner : "@" + owner`. -/
def addAtSign (owner : String) : String :=
  if startsWithAt owner then owner else "@" ++ owner

/-- `owners.map(addAtSign).join(" ")`. -/
def ownersLine (owners : List String) : String :=
  String.intercalate " " (owners.map addAtSign)

/-- JavaScript `filepath.padEnd(n)` (pads with spaces on the right, never
truncates). -/
def padEndStr (s : String) (n : Nat) : String :=
  s ++ String.mk (List.replicate (n - s.length) ' ')

/-- The directory computation of the rendering loop:
`filepath.includes("/") ? filepath.substring(0, filepath.lastIndexOf("/")) : ""`. -/
def dirOf (filepath : String) : String :=
  let segs := jsSplit filepath '/'
  if segs.length ≤ 1 then "" else String.intercalate "/" segs.dropLast

/-- The per-entry rendering loop of `generateCodeowners`: a directory comment
line (preceded by a blank line once the header has grown past 5 lines) each
time the directory changes, then the padded path and owner list. -/
def renderEntries (maxPathLength : Nat) :
    List FileEntry → String → List String → List String
  | [], _, lines => lines
  | e :: rest, currentDir, lines =>
    let fileDir := dirOf e.filepath
    let lines2 :=
      if fileDir ≠ currentDir then
        let lines1 := if lines.length > 5 then lines ++ [""] else lines
        if fileDir = "" then lines1 ++ ["# Root directory"]
        else lines1 ++ ["# " ++ fileDir ++ "/"]
      else lines
    let currentDir2 := if fileDir ≠ currentDir then fileDir else currentDir
    renderEntries maxPathLength rest currentDir2
      (lines2 ++ [padEndStr e.filepath maxPathLength ++ " " ++ ownersLine e.owners])

/-- The header block of `generateCodeowners`: fixed comments with the
generation date and time, the analysis period and the threshold; one comment
line per present configuration field (a present-but-zero `maxOwners` or
`minOwners` is falsy and prints nothing); then a blank line and, when project
owners exist, the global `*` fallback block. -/
def headerLines (nowDate nowTime sinceDate : String) (minCommits : Nat)
    (cfg : CodeownConfig) : List String :=
  let lines := ["# Auto-generated CODEOWNERS file based on git history",
    "# Generated on " ++ nowDate ++ " " ++ nowTime,
    "# Analysis period: since " ++ sinceDate,
    "# Minimum commits threshold: " ++ toString minCommits]
  let lines :=
    match cfg.members with
    | some ms => lines ++ ["# Members filter: " ++ String.intercalate ", " ms]
    | none => lines
  let lines :=
    match cfg.overrides with
    | some ovr => lines ++ ["# Override rules: " ++ toString ovr.length ++ " patterns"]
    | none => lines
  let lines :=
    match cfg.maxOwners with
    | some n => if n ≠ 0 then lines ++ ["# Max owners per file: " ++ toString n] else lines
    | none => lines
  let lines :=
    match cfg.minOwners with
    | some n => if n ≠ 0 then lines ++ ["# Min owners per file: " ++ toString n] else lines
    | none => lines
  let lines :=
    match cfg.projectOwners with
    | some po => lines ++ ["# Project owners (fallback): " ++ String.intercalate ", " po]
    | none => lines
  let lines := lines ++ [""]
  let projectOwners := getProjectOwners cfg
  if projectOwners.length > 0 then
    lines ++ ["# Default owners for all files", "* " ++ ownersLine projectOwners, ""]
  else lines

/-- The full text written by `generateCodeowners` (the file content is
`lines.join("\n")`): header, then the sorted entries with directory comments,
paths padded to the capped maximum path length. -/
def generateOutput (nowDate nowTime sinceDate : String) (minCommits : Nat)
    (cfg : CodeownConfig) (e2u : List (String × String))
    (fileStats : List (String × List (String × Nat))) (allFiles : List String)
    (cmp : String → String → Int) : String :=
  let fileOwners := sortedFileOwners cfg minCommits e2u fileStats allFiles cmp
  let maxPathLength :=
    min ((fileOwners.map (fun f => f.filepath.length)).foldl max 20) 80
  let lines := headerLines nowDate nowTime sinceDate minCommits cfg
  let lines := renderEntries maxPathLength fileOwners "" lines
  String.intercalate "\n" lines

/-- The owner-name normalization of `getOwnershipStats`:
`owner.startsWith("@") ? owner.slice(1) : owner`. -/
def stripAtSign (owner : String) : String :=
  if startsWithAt owner then owner.drop 1 else owner

/-- `ownerStats[username] = (ownerStats[username] || 0) + 1` on a JavaScript
object in key-insertion order: bump an existing key in place, else append the
key with count 1. -/
def creditOwner : List (String × Nat) → String → List (String × Nat)
  | [], u => [(u, 1)]
  | (k, v) :: rest, u =>
    if k = u then (k, v + 1) :: rest else (k, v) :: creditOwner rest u

/-- The result record of `CodeOwnersGenerator.getOwnershipStats`. -/
structure OwnershipStats where
  stats : List (String × Nat)
  totalFiles : Nat
  uniqueOwners : Nat
deriving DecidableEq

/-- One iteration of the `getOwnershipStats` loop over a `fileStats` entry:
an override credits every override owner (the `@` stripped) and counts the
file once; otherwise the top valid contributor is credited when it meets the
commit threshold, and the file counts once. -/
def statsStep (cfg : CodeownConfig) (minCommits : Nat) (e2u : List (String × String))
    (acc : List (String × Nat) × Nat) (entry : String × List (String × Nat)) :
    List (String × Nat) × Nat :=
  match getOverrideOwners cfg entry.1 with
  | some overrideOwners =>
    (overrideOwners.foldl (fun os owner => creditOwner os (stripAtSign owner)) acc.1,
      acc.2 + 1)
  | none =>
    if entry.2.length = 0 then acc
    else
      match validContribs cfg e2u entry.2 with
      | [] => acc
      | (email, commitCount) :: _ =>
        if minCommits ≤ commitCount then
          (creditOwner acc.1 (getUsername e2u email), acc.2 + 1)
        else acc

/-- `CodeOwnersGenerator.getOwnershipStats`: fold over `fileStats` in insertion
order; `uniqueOwners` is the number of distinct credited names. -/
def getOwnershipStats (cfg : CodeownConfig) (minCommits : Nat)
    (e2u : List (String × String)) (fileStats : List (String × List (String × Nat))) :
    OwnershipStats :=
  let acc := fileStats.foldl (statsStep cfg minCommits e2u) ([], 0)
  ⟨acc.1, acc.2, acc.1.length⟩

/-- The sum of the per-owner counts of an owner-stats object. -/
def sumVals (l : List (String × Nat)) : Nat :=
  (l.map Prod.snd).sum

/-- Characterization used by the amended claim C8: whether a `fileStats` entry
is counted by `getOwnershipStats` — always for an override file, otherwise
exactly when the tally is non-empty and its top valid contributor meets the
commit threshold. -/
def statsCounted (cfg : CodeownConfig) (minCommits : Nat)
    (e2u : List (String × String)) (entry : String × List (String × Nat)) : Bool :=
  match getOverrideOwners cfg entry.1 with
  | some _ => true
  | none =>
    if entry.2.length = 0 then false
    else
      match validContribs cfg e2u entry.2 with
      | [] => false
      | (_, commitCount) :: _ => decide (minCommits ≤ commitCount)

/-- Characterization used by the amended claim C8: how many owner credits one
counted `fileStats` entry contributes — one per override owner for an override
file, exactly one otherwise. -/
def statsCredits (cfg : CodeownConfig) (entry : String × List (String × Nat)) : Nat :=
  match getOverrideOwners cfg entry.1 with
  | some overrideOwners => overrideOwners.length
  | none => 1

/-- The analysis result rows returned by `analyzeRepository`. -/
structure AnalysisResult where
  filepath : String
  commits : Nat
  contributors : List String
deriving DecidableEq

/-- `contributors[email] = (contributors[email] || 0) + 1`: bump the tally of
an email in insertion order. -/
def updateTally (tally : List (String × Nat)) (email : String) : List (String × Nat) :=
  match List.lookup email tally with
  | some _ => tally.map fun kv => if kv.1 = email then (kv.1, kv.2 + 1) else kv
  | none => tally ++ [(email, 1)]

/-- `analyzeFileContributions` after the version-control collaborator returned
its `(email, name)` pairs (newest first): build the per-file tally and extend
the email→username memo map on first sight of an email.  Pairs with an empty
email or name are skipped (`if (!email || !name) continue`). -/
def analyzeFileContributions (e2u : List (String × String))
    (pairs : List (String × String)) : List (String × Nat) × List (String × String) :=
  pairs.foldl
    (fun acc p =>
      if p.1 = "" ∨ p.2 = "" then acc
      else
        (updateTally acc.1 p.1,
          if (List.lookup p.1 acc.2).isSome then acc.2
          else acc.2 ++ [(p.1, extractUsername p.1)]))
    (([] : List (String × Nat)), e2u)

/-- The mutable state of one `CodeOwnersGenerator` run, plus the list of files
for which a version-control query was actually issued (instrumentation for the
cancellation property). -/
structure RunState where
  e2u : List (String × String)
  fileStats : List (String × List (String × Nat))
  results : List AnalysisResult
  queried : List String
deriving DecidableEq

/-- The state of a freshly constructed generator. -/
def initRunState : RunState :=
  ⟨[], [], [], []⟩

/-- The `AbortSignal` sampled at the top of iteration `i`: cancellation
requested from step `k` on is modelled by `abortAfter = some k` (the signal is
monotone — once aborted, always aborted). -/
def isAborted (abortAfter : Option Nat) (i : Nat) : Bool :=
  match abortAfter with
  | some k => decide (k ≤ i)
  | none => false

/-- The body of one `analyzeRepository` iteration once the abort check has
passed: record the issued query, run `analyzeFileContributions` (extending the
username memo map), and append the tally and the result row when the tally is
non-empty. -/
def analyzeStep (histories : String → List (String × String)) (filepath : String)
    (st : RunState) : RunState :=
  let st1 : RunState := { st with queried := st.queried ++ [filepath] }
  let res := analyzeFileContributions st1.e2u (histories filepath)
  let st2 : RunState := { st1 with e2u := res.2 }
  if res.1.length > 0 then
    { st2 with
      fileStats := st2.fileStats ++ [(filepath, res.1)],
      results := st2.results ++
        [⟨filepath, (res.1.map Prod.snd).sum,
          res.1.map fun kv => getUsername res.2 kv.1⟩] }
  else st2

/-- The loop of `analyzeRepository`: at each file, first check the abort
signal (throwing `"Operation aborted"`), then issue the version-control query
and record its outcome via `analyzeStep`.  Returns the thrown-or-ok outcome
and the final state. -/
def analyzeRepositoryGo (abortAfter : Option Nat)
    (histories : String → List (String × String)) :
    List String → Nat → RunState → Except String Unit × RunState
  | [], _, st => (Except.ok (), st)
  | filepath :: rest, i, st =>
    if isAborted abortAfter i then (Except.error "Operation aborted", st)
    else analyzeRepositoryGo abortAfter histories rest (i + 1)
      (analyzeStep histories filepath st)

/-- The terminal outcome of the `runAnalysis` flow in `CodeOwnersApp`:
`complete` (success, CODEOWNERS written), `errorPhase` (the error UI state), or
`abortedSilently` — the early `return` taken when the caught error is
`"Operation aborted"`, which sets no phase and writes nothing. -/
inductive AppOutcome where
  | complete (rulesGenerated : Nat)
  | errorPhase (msg : String)
  | abortedSilently
deriving DecidableEq

/-- The `runAnalysis` flow of `CodeOwnersApp` from the start of the analysis
loop: run `analyzeRepository`; on an `"Operation aborted"` error return
silently; on success run `generateCodeowners` (which writes the output file —
the returned Bool records whether the file was written). -/
def runAnalysisFlow (abortAfter : Option Nat)
    (histories : String → List (String × String)) (files : List String)
    (cfg : CodeownConfig) (minCommits : Nat) (cmp : String → String → Int) :
    AppOutcome × Bool :=
  let r := analyzeRepositoryGo abortAfter histories files 0 initRunState
  match r.1 with
  | Except.error msg =>
    if msg = "Operation aborted" then (AppOutcome.abortedSilently, false)
    else (AppOutcome.errorPhase msg, false)
  | Except.ok _ =>
    (AppOutcome.complete
      (sortedFileOwners cfg minCommits r.2.e2u r.2.fileStats files cmp).length, true)

/-! ### Helper lemmas about the stable sort, `find?` and `lookup` -/

theorem sortByCmp_perm {α : Type} (cmp : α → α → Int) (l : List α) :
    (sortByCmp cmp l).Perm l :=
  List.perm_insertionSort _ l

theorem sortByCmp_pairwise {α : Type} (cmp : α → α → Int)
    (htot : ∀ a b, cmp a b ≤ 0 ∨ cmp b a ≤ 0)
    (htrans : ∀ a b c, cmp a b ≤ 0 → cmp b c ≤ 0 → cmp a c ≤ 0) (l : List α) :
    (sortByCmp cmp l).Pairwise (fun a b => cmp a b ≤ 0) := by
  haveI : IsTotal α (fun a b => cmp a b ≤ 0) := ⟨htot⟩
  haveI : IsTrans α (fun a b => cmp a b ≤ 0) := ⟨htrans⟩
  exact List.sorted_insertionSort _ l

theorem orderedInsert_filter_neg {α : Type} (r : α → α → Prop) [DecidableRel r]
    (P : α → Bool) (x : α) (hx : P x = false) :
    ∀ l : List α, (List.orderedInsert r x l).filter P = l.filter P
  | [] => by simp [List.orderedInsert, List.filter, hx]
  | y :: ys => by
    simp only [List.orderedInsert]
    split
    · simp [List.filter_cons, hx]
    · simp only [List.filter_cons]
      rw [orderedInsert_filter_neg r P x hx ys]

theorem orderedInsert_filter_pos {α : Type} (r : α → α → Prop) [DecidableRel r]
    (P : α → Bool) (x : α) (hx : P x = true) (h : ∀ y, ¬ r x y → P y = false) :
    ∀ l : List α, (List.orderedInsert r x l).filter P = x :: l.filter P
  | [] => by simp [List.orderedInsert, List.filter, hx]
  | y :: ys => by
    simp only [List.orderedInsert]
    split
    · simp [List.filter_cons, hx]
    · rename_i hr
      have hy : P y = false := h y hr
      simp only [List.filter_cons, hy, if_neg]
      rw [orderedInsert_filter_pos r P x hx h ys]
      simp [hy]

theorem insertionSort_filter {α : Type} (r : α → α → Prop) [DecidableRel r]
    (P : α → Bool) (hP : ∀ x y, P x = true → ¬ r x y → P y = false) :
    ∀ l : List α, (List.insertionSort r l).filter P = l.filter P
  | [] => rfl
  | x :: xs => by
    simp only [List.insertionSort]
    by_cases hx : P x = true
    · rw [orderedInsert_filter_pos r P x hx (fun y => hP x y hx),
        insertionSort_filter r P hP xs]
      simp [List.filter_cons, hx]
    · have hx' : P x = false := by
        cases hPx : P x with
        | false => rfl
        | true => exact absurd hPx hx
      rw [orderedInsert_filter_neg r P x hx', insertionSort_filter r P hP xs]
      simp [List.filter_cons, hx']

theorem find?_eq_some_split {α : Type} {p : α → Bool} :
    ∀ {l : List α} {x : α}, l.find? p = some x →
      p x = true ∧ ∃ l1 l2, l = l1 ++ x :: l2 ∧ ∀ a ∈ l1, p a = false
  | [], x => by intro h; simp [List.find?] at h
  | y :: ys, x => by
    intro h
    rw [List.find?_cons] at h
    cases hy : p y with
    | true =>
      rw [hy] at h
      simp only at h
      obtain rfl : y = x := by injection h
      exact ⟨hy, [], ys, rfl, by simp⟩
    | false =>
      rw [hy] at h
      simp only at h
      obtain ⟨hp, l1, l2, rfl, hall⟩ := find?_eq_some_split (l := ys) h
      refine ⟨hp, y :: l1, l2, rfl, ?_⟩
      intro a ha
      rcases List.mem_cons.mp ha with rfl | ha
      · exact hy
      · exact hall a ha

theorem lookup_mem {β : Type} :
    ∀ {l : List (String × β)} {k : String} {v : β},
      List.lookup k l = some v → (k, v) ∈ l
  | [], k, v => by intro h; simp [List.lookup] at h
  | (a, b) :: rest, k, v => by
    intro h
    rw [List.lookup] at h
    cases hk : k == a with
    | true =>
      rw [hk] at h
      simp only at h
      obtain rfl : b = v := by injection h
      obtain rfl : k = a := eq_of_beq hk
      exact List.mem_cons_self _ _
    | false =>
      rw [hk] at h
      simp only at h
      exact List.mem_cons_of_mem _ (lookup_mem h)

/-! ### Claim C10 -/

/-- Claim C10: `shouldIncludeContributor(email, username)` returns true exactly
when the configured members list is absent or empty, or the list contains the
derived username, or the list contains the raw email; a present-but-empty
members array disables membership filtering entirely, and a contributor is
admitted when either identity form appears in the list. -/
theorem C10_membership_filter (cfg : CodeownConfig) (email username : String) :
    shouldIncludeContributor cfg email username = true ↔
      (cfg.members = none ∨ cfg.members = some [] ∨
        ∃ ms, cfg.members = some ms ∧ (username ∈ ms ∨ email ∈ ms)) := by
  unfold shouldIncludeContributor
  cases h : cfg.members with
  | none => simp
  | some ms =>
    by_cases hms : ms.length = 0
    · have hnil : ms = [] := List.length_eq_zero.mp hms
      subst hnil
      simp
    · simp only [if_neg hms]
      constructor
      · intro hb
        refine Or.inr (Or.inr ⟨ms, rfl, ?_⟩)
        rcases Bool.or_eq_true _ _ |>.mp hb with h1 | h1
        · exact Or.inl (by simpa using h1)
        · exact Or.inr (by simpa using h1)
      · rintro (hcontra | hcontra | ⟨ms', hms', hmem⟩)
        · exact absurd hcontra (by simp)
        · obtain rfl : ms = [] := by injection hcontra
          simp at hms
        · obtain rfl : ms = ms' := by injection hms'
          rcases hmem with hmem | hmem
          · exact Bool.or_eq_true _ _ |>.mpr (Or.inl (by simpa using hmem))
          · exact Bool.or_eq_true _ _ |>.mpr (Or.inr (by simpa using hmem))

/-! ### Claim C6 -/

/-- Claim C6 counterexample: on the pattern `"a**b"` the code's specificity
(which subtracts 50 for the substring `**` anywhere: score −50) differs from
the claim's formula (−50 only for a `**` '/'-segment: score 0). -/
theorem C6_counterexample :
    getPatternSpecificity "a**b" ≠ specificityPerClaim "a**b" := by decide

/-- Claim C6 (amended): the specificity score is +1000 for a pattern with no
wildcard characters, +10 per '/'-separated segment, −5 per `*` occurrence, and
−50 if the pattern contains the substring `**` anywhere (not only as a whole
segment); and patterns with equal scores keep their configuration insertion
order in the ranked sequence (stability, stated as preservation of every
equal-score fiber). -/
theorem C6_specificity_formula_and_ties :
    (∀ pattern : String, getPatternSpecificity pattern =
      (if !(pattern.toList.contains '*') && !(pattern.toList.contains '?')
        then (1000 : Int) else 0)
      + 10 * ((jsSplit pattern '/').length : Int)
      - 5 * ((pattern.toList.filter (· == '*')).length : Int)
      - (if hasStarStar pattern.toList then (50 : Int) else 0))
    ∧ ∀ (patterns : List String) (s : Int),
      (rankPatterns patterns).filter (fun q => getPatternSpecificity q == s)
        = patterns.filter (fun q => getPatternSpecificity q == s) := by
  constructor
  · intro pattern
    unfold getPatternSpecificity
    split <;> split <;> ring
  · intro patterns s
    unfold rankPatterns sortByCmp
    apply insertionSort_filter
    intro x y hx hr
    have hr' : ¬ (getPatternSpecificity y - getPatternSpecificity x ≤ 0) := hr
    have hxs : getPatternSpecificity x = s := by simpa using hx
    have hlt : getPatternSpecificity x < getPatternSpecificity y := by omega
    have : getPatternSpecificity y ≠ s := by omega
    simpa using this

/-! ### Claim C1 -/

/-- Claim C1: every file emitted via the override path carries, element for
element and in order, the configured owner list of the matching override
pattern of maximal specificity among all matching patterns; and the file's
contribution tally has no influence — `resolveFileOwners` returns the same
override list for every tally. -/
theorem C1_override_verbatim (cfg : CodeownConfig) (minCommits : Nat)
    (e2u : List (String × String)) (fileStats : List (String × List (String × Nat)))
    (allFiles : List String) (e : FileEntry) (ov : List String)
    (ovr : List (String × List String))
    (hovr : cfg.overrides = some ovr)
    (hmem : e ∈ computeFileOwners cfg minCommits e2u fileStats allFiles)
    (hov : getOverrideOwners cfg e.filepath = some ov) :
    e.owners = ov
    ∧ (∀ tally, resolveFileOwners cfg minCommits e2u e.filepath tally = some ov)
    ∧ ∃ pat, minimatch e.filepath pat = true ∧ List.lookup pat ovr = some ov ∧
        ∀ q ∈ ovr.map Prod.fst, minimatch e.filepath q = true →
          getPatternSpecificity q ≤ getPatternSpecificity pat := by
  have hres : ∀ tally, resolveFileOwners cfg minCommits e2u e.filepath tally = some ov := by
    intro tally
    unfold resolveFileOwners
    rw [hov]
  refine ⟨?_, hres, ?_⟩
  · -- every entry whose path has an override carries exactly the override list
    unfold computeFileOwners at hmem
    rw [hovr] at hmem
    simp only [List.mem_append, List.mem_filterMap] at hmem
    rcases hmem with ⟨a, _, hmap⟩ | ⟨fp, _, hmap⟩
    · rcases Option.map_eq_some'.mp hmap with ⟨os, hrs, hmk⟩
      have hfp : e.filepath = a.1 := by rw [← hmk]
      have hos : e.owners = os := by rw [← hmk]
      rw [hfp] at hres
      have := hres a.2
      rw [hrs] at this
      injection this with h2
      rw [hos, h2]
    · by_cases hin : (List.lookup fp fileStats).isSome
      · rw [if_pos hin] at hmap
        exact absurd hmap (by simp)
      · rw [if_neg hin] at hmap
        rcases Option.map_eq_some'.mp hmap with ⟨os, hrs, hmk⟩
        have hfp : e.filepath = fp := by rw [← hmk]
        have hos : e.owners = os := by rw [← hmk]
        rw [hfp] at hov
        rw [hov] at hrs
        injection hrs with h2
        rw [hos, ← h2]
  · -- the pattern found is a matching pattern of maximal specificity
    unfold getOverrideOwners at hov
    rw [hovr] at hov
    replace hov : (match (rankPatterns (ovr.map Prod.fst)).find?
        (fun pattern => minimatch e.filepath pattern) with
      | some pattern => List.lookup pattern ovr
      | none => none) = some ov := hov
    cases hfind : (rankPatterns (ovr.map Prod.fst)).find?
        (fun pattern => minimatch e.filepath pattern) with
    | none =>
      rw [hfind] at hov
      exact Option.noConfusion hov
    | some pat =>
      rw [hfind] at hov
      obtain ⟨hp, l1, l2, hsplit, hfail⟩ := find?_eq_some_split hfind
      refine ⟨pat, hp, hov, ?_⟩
      intro q hq hmq
      have hsorted : (rankPatterns (ovr.map Prod.fst)).Pairwise
          (fun a b => getPatternSpecificity b - getPatternSpecificity a ≤ 0) :=
        sortByCmp_pairwise
          (fun a b => getPatternSpecificity b - getPatternSpecificity a)
          (fun a b => by
            show getPatternSpecificity b - getPatternSpecificity a ≤ 0 ∨
              getPatternSpecificity a - getPatternSpecificity b ≤ 0
            omega)
          (fun a b c hab hbc => by
            have hab' : getPatternSpecificity b - getPatternSpecificity a ≤ 0 := hab
            have hbc' : getPatternSpecificity c - getPatternSpecificity b ≤ 0 := hbc
            show getPatternSpecificity c - getPatternSpecificity a ≤ 0
            omega)
          (ovr.map Prod.fst)
      have hqrank : q ∈ rankPatterns (ovr.map Prod.fst) :=
        (sortByCmp_perm (fun a b =>
          getPatternSpecificity b - getPatternSpecificity a) (ovr.map Prod.fst)).symm.subset hq
      rw [hsplit] at hsorted hqrank
      rcases List.mem_append.mp hqrank with hq1 | hq2
      · exact absurd hmq (by simp [hfail q hq1])
      · rcases List.mem_cons.mp hq2 with rfl | hq3
        · exact le_refl _
        · have hp2 := (List.pairwise_append.mp hsorted).2.1
          have hrel := (List.pairwise_cons.mp hp2).1 q hq3
          have hrel' : getPatternSpecificity q - getPatternSpecificity pat ≤ 0 := hrel
          omega

/-- Witness for C1 at the spec's own scenario: config
`{"overrides": {"src/*": ["x"], "src/secrets.yml": ["security-team"]}}` and a
file `src/secrets.yml` with tally `{alice: 5}` emits exactly
`["security-team"]` (the literal pattern outranks the wildcard one). -/
theorem C1_witness :
    (FileEntry.mk "src/secrets.yml" ["security-team"]) ∈ computeFileOwners
      { emptyConfig with overrides := some [("src/*", ["x"]), ("src/secrets.yml", ["security-team"])] }
      1 [] [("src/secrets.yml", [("alice@a.com", 5)])] []
    ∧ (FileEntry.mk "src/secrets.yml" ["security-team"]).owners = ["security-team"] :=
  ⟨by decide,
    (C1_override_verbatim
      { emptyConfig with overrides := some [("src/*", ["x"]), ("src/secrets.yml", ["security-team"])] }
      1 [] [("src/secrets.yml", [("alice@a.com", 5)])] []
      (FileEntry.mk "src/secrets.yml" ["security-team"]) ["security-team"]
      [("src/*", ["x"]), ("src/secrets.yml", ["security-team"])]
      rfl (by decide) (by decide)).1⟩

/-! ### Claim C7 -/

/-- Claim C7 counterexample: for the wildcard-free pattern `"src"` (not ending
in `/`) and the path `"src/a.ts"` beneath that directory, the include check
does treat the pattern as the directory and everything beneath it, but the
override lookup does not: `{"overrides": {"src": ["x"]}}` yields no override
for `"src/a.ts"`, contradicting the claim that the directory normalization
applies in every configured pattern lookup. -/
theorem C7_counterexample :
    shouldIncludeFile { emptyConfig with includeList := some ["src"] } "src/a.ts" = true
    ∧ getOverrideOwners { emptyConfig with overrides := some [("src", ["x"])] } "src/a.ts"
        = none := by
  constructor
  · decide
  · decide

/-- Claim C7 (amended): the both-forms normalization (literal pattern or
`pattern ++ "/**/*"`, either suffices) applies to wildcard-free patterns not
ending in `/` only in the include and exclude checks of `shouldIncludeFile`;
the override and default-owners lookups match the raw pattern only, so when no
raw pattern matches a path those lookups return nothing. -/
theorem C7_normalization_scope :
    (∀ filepath pattern : String, pattern.toList.contains '*' = false →
      endsWithSlash pattern = false →
      matchesPattern filepath pattern
        = (minimatch filepath (pattern ++ "/**/*") || minimatch filepath pattern))
    ∧ (∀ (cfg : CodeownConfig) (filepath : String) (ovr : List (String × List String)),
        cfg.overrides = some ovr →
        (∀ q ∈ ovr.map Prod.fst, minimatch filepath q = false) →
        getOverrideOwners cfg filepath = none)
    ∧ (∀ (cfg : CodeownConfig) (filepath : String) (defs : List (String × List String)),
        cfg.defaultOwners = some defs →
        (∀ q ∈ defs.map Prod.fst, minimatch filepath q = false) →
        getDefaultOwners cfg filepath = none) := by
  refine ⟨?_, ?_, ?_⟩
  · intro filepath pattern hstar hslash
    unfold matchesPattern normalizePattern
    rw [if_neg (by simp [hslash]), if_neg (by simpa using hstar)]
  · intro cfg filepath ovr hovr hnone
    have hfind : (rankPatterns (ovr.map Prod.fst)).find?
        (fun pattern => minimatch filepath pattern) = none := by
      rw [List.find?_eq_none]
      intro q hq
      have hqm : q ∈ ovr.map Prod.fst :=
        (sortByCmp_perm (fun a b =>
          getPatternSpecificity b - getPatternSpecificity a) (ovr.map Prod.fst)).subset hq
      simp [hnone q hqm]
    have hchar : getOverrideOwners cfg filepath =
        (match (rankPatterns (ovr.map Prod.fst)).find?
            (fun pattern => minimatch filepath pattern) with
          | some pattern => List.lookup pattern ovr
          | none => none) := by
      unfold getOverrideOwners
      rw [hovr]
    rw [hchar, hfind]
  · intro cfg filepath defs hdefs hnone
    have hfind : (rankPatterns (defs.map Prod.fst)).find?
        (fun pattern => minimatch filepath pattern) = none := by
      rw [List.find?_eq_none]
      intro q hq
      have hqm : q ∈ defs.map Prod.fst :=
        (sortByCmp_perm (fun a b =>
          getPatternSpecificity b - getPatternSpecificity a) (defs.map Prod.fst)).subset hq
      simp [hnone q hqm]
    have hchar : getDefaultOwners cfg filepath =
        (match (rankPatterns (defs.map Prod.fst)).find?
            (fun pattern => minimatch filepath pattern) with
          | some pattern => List.lookup pattern defs
          | none => none) := by
      unfold getDefaultOwners
      rw [hdefs]
    rw [hchar, hfind]

/-- Witness for the amended C7 at pattern `"src"`, path `"src/a.ts"`. -/
theorem C7_witness :
    matchesPattern "src/a.ts" "src"
      = (minimatch "src/a.ts" ("src" ++ "/**/*") || minimatch "src/a.ts" "src")
    ∧ getOverrideOwners { emptyConfig with overrides := some [("src", ["x"])] } "src/a.ts"
        = none
    ∧ getDefaultOwners { emptyConfig with defaultOwners := some [("src", ["x"])] } "src/a.ts"
        = none :=
  ⟨C7_normalization_scope.1 "src/a.ts" "src" (by decide) (by decide),
    C7_normalization_scope.2.1 _ "src/a.ts" [("src", ["x"])] rfl (by decide),
    C7_normalization_scope.2.2 _ "src/a.ts" [("src", ["x"])] rfl (by decide)⟩

/-! ### Length lemmas for selection and supplementation -/

theorem selectOwners_length_le (cfg : CodeownConfig) (minCommits : Nat)
    (e2u : List (String × String)) (contributors : List (String × Nat)) :
    (selectOwners cfg minCommits e2u contributors).length ≤ getMaxOwners cfg := by
  unfold selectOwners
  rw [List.length_map]
  exact le_trans (List.length_filter_le _ _) (List.length_take_le _ _)

theorem addDefaults_length_le (m : Nat) :
    ∀ (ds owners set : List String), owners.length < m →
      ((addDefaults m owners set ds).1).length ≤ m
  | [], owners, set, h => by
    unfold addDefaults
    exact le_of_lt h
  | d :: ds, owners, set, h => by
    unfold addDefaults
    split
    · exact addDefaults_length_le m ds owners set h
    · split
      · simpa using h
      · rename_i hlt
        exact addDefaults_length_le m ds (owners ++ [d]) (set ++ [d]) (by
          simp only [List.length_append, List.length_cons, List.length_nil] at hlt ⊢
          omega)

theorem addDefaults_length_ge (m : Nat) :
    ∀ (ds owners set : List String),
      owners.length ≤ ((addDefaults m owners set ds).1).length
  | [], owners, set => by unfold addDefaults; exact le_refl _
  | d :: ds, owners, set => by
    unfold addDefaults
    split
    · exact addDefaults_length_ge m ds owners set
    · split
      · simp
      · exact le_trans (by simp) (addDefaults_length_ge m ds (owners ++ [d]) (set ++ [d]))

theorem addProject_length_le (m : Nat) :
    ∀ (ps owners set : List String), owners.length < m →
      (addProject m owners set ps).length ≤ m
  | [], owners, set, h => by
    unfold addProject
    exact le_of_lt h
  | p :: ps, owners, set, h => by
    unfold addProject
    split
    · exact addProject_length_le m ps owners set h
    · split
      · simpa using h
      · rename_i hlt
        exact addProject_length_le m ps (owners ++ [p]) set (by
          simp only [List.length_append, List.length_cons, List.length_nil] at hlt ⊢
          omega)

theorem addProject_length_ge (m : Nat) :
    ∀ (ps owners set : List String),
      owners.length ≤ (addProject m owners set ps).length
  | [], owners, set => by unfold addProject; exact le_refl _
  | p :: ps, owners, set => by
    unfold addProject
    split
    · exact addProject_length_ge m ps owners set
    · split
      · simp
      · exact le_trans (by simp) (addProject_length_ge m ps (owners ++ [p]) set)

theorem supplementOwners_length_le (m : Nat) (defaults : Option (List String))
    (projectOwners owners : List String) (h : owners.length < m) :
    (supplementOwners m defaults projectOwners owners).length ≤ m := by
  have hstep1 : ∀ pr : List String × List String, pr.1.length ≤ m →
      (if pr.1.length < m ∧ projectOwners.length > 0 then
        addProject m pr.1 pr.2 projectOwners else pr.1).length ≤ m := by
    intro pr hpr
    split
    · rename_i hcond
      exact addProject_length_le m projectOwners pr.1 pr.2 hcond.1
    · exact hpr
  have hfirst : (match defaults with
      | some ds => if ds.length > 0 then addDefaults m owners owners ds else (owners, owners)
      | none => (owners, owners)).1.length ≤ m := by
    cases defaults with
    | none => exact le_of_lt h
    | some ds =>
      show (if ds.length > 0 then addDefaults m owners owners ds
        else (owners, owners)).1.length ≤ m
      by_cases hd : ds.length > 0
      · rw [if_pos hd]
        exact addDefaults_length_le m ds owners owners h
      · rw [if_neg hd]
        exact le_of_lt h
  exact hstep1 _ hfirst

theorem supplementOwners_length_ge (m : Nat) (defaults : Option (List String))
    (projectOwners owners : List String) :
    owners.length ≤ (supplementOwners m defaults projectOwners owners).length := by
  have hfirst : owners.length ≤ (match defaults with
      | some ds => if ds.length > 0 then addDefaults m owners owners ds else (owners, owners)
      | none => (owners, owners)).1.length := by
    cases defaults with
    | none => exact le_refl _
    | some ds =>
      show owners.length ≤ (if ds.length > 0 then addDefaults m owners owners ds
        else (owners, owners)).1.length
      by_cases hd : ds.length > 0
      · rw [if_pos hd]
        exact addDefaults_length_ge m ds owners owners
      · rw [if_neg hd]
  have hstep1 : ∀ pr : List String × List String,
      pr.1.length ≤ (if pr.1.length < m ∧ projectOwners.length > 0 then
        addProject m pr.1 pr.2 projectOwners else pr.1).length := by
    intro pr
    split
    · exact addProject_length_ge m projectOwners pr.1 pr.2
    · exact le_refl _
  exact le_trans hfirst (hstep1 _)

/-! ### Branch equations for `resolveFileOwners` -/

theorem resolveFileOwners_override (cfg : CodeownConfig) (mc : Nat)
    (e2u : List (String × String)) (fp : String) (ov : List String)
    (contribs : List (String × Nat)) (h : getOverrideOwners cfg fp = some ov) :
    resolveFileOwners cfg mc e2u fp contribs = some ov := by
  unfold resolveFileOwners
  rw [h]

theorem resolveFileOwners_no_override (cfg : CodeownConfig) (mc : Nat)
    (e2u : List (String × String)) (fp : String) (contribs : List (String × Nat))
    (h : getOverrideOwners cfg fp = none) :
    resolveFileOwners cfg mc e2u fp contribs =
      (if contribs.length = 0 then none
       else if (validContribs cfg e2u contribs).length = 0 then none
       else
         let owners0 := selectOwners cfg mc e2u contribs
         let owners1 :=
           if 0 < owners0.length ∧ owners0.length < getMinOwners cfg then
             supplementOwners (getMinOwners cfg) (getDefaultOwners cfg fp)
               (getProjectOwners cfg) owners0
           else owners0
         if 0 < owners1.length then some owners1 else none) := by
  unfold resolveFileOwners
  rw [h]

theorem resolveFileOwners_select_nil (cfg : CodeownConfig) (mc : Nat)
    (e2u : List (String × String)) (fp : String) (contribs : List (String × Nat))
    (h : getOverrideOwners cfg fp = none)
    (hsel : selectOwners cfg mc e2u contribs = []) :
    resolveFileOwners cfg mc e2u fp contribs = none := by
  rw [resolveFileOwners_no_override cfg mc e2u fp contribs h]
  by_cases hc : contribs.length = 0
  · rw [if_pos hc]
  · rw [if_neg hc]
    by_cases hv : (validContribs cfg e2u contribs).length = 0
    · rw [if_pos hv]
    · rw [if_neg hv]
      simp [hsel]

theorem selectOwners_nil_of_contribs_nil (cfg : CodeownConfig) (mc : Nat)
    (e2u : List (String × String)) (contribs : List (String × Nat))
    (h : contribs.length = 0) : selectOwners cfg mc e2u contribs = [] := by
  obtain rfl : contribs = [] := List.length_eq_zero.mp h
  simp [selectOwners, validContribs, sortByCmp, List.insertionSort]

theorem selectOwners_nil_of_valid_nil (cfg : CodeownConfig) (mc : Nat)
    (e2u : List (String × String)) (contribs : List (String × Nat))
    (h : (validContribs cfg e2u contribs).length = 0) :
    selectOwners cfg mc e2u contribs = [] := by
  have hnil : validContribs cfg e2u contribs = [] := List.length_eq_zero.mp h
  simp [selectOwners, hnil]

theorem resolveFileOwners_select_enough (cfg : CodeownConfig) (mc : Nat)
    (e2u : List (String × String)) (fp : String) (contribs : List (String × Nat))
    (h : getOverrideOwners cfg fp = none)
    (hne : selectOwners cfg mc e2u contribs ≠ [])
    (hge : getMinOwners cfg ≤ (selectOwners cfg mc e2u contribs).length) :
    resolveFileOwners cfg mc e2u fp contribs = some (selectOwners cfg mc e2u contribs) := by
  rw [resolveFileOwners_no_override cfg mc e2u fp contribs h]
  have hc : ¬ contribs.length = 0 := fun hc =>
    hne (selectOwners_nil_of_contribs_nil cfg mc e2u contribs hc)
  have hv : ¬ (validContribs cfg e2u contribs).length = 0 := fun hv =>
    hne (selectOwners_nil_of_valid_nil cfg mc e2u contribs hv)
  rw [if_neg hc, if_neg hv]
  have hcond : ¬ (0 < (selectOwners cfg mc e2u contribs).length ∧
      (selectOwners cfg mc e2u contribs).length < getMinOwners cfg) :=
    fun hcond => absurd hcond.2 (not_lt.mpr hge)
  have hpos : 0 < (selectOwners cfg mc e2u contribs).length :=
    List.length_pos.mpr hne
  simp only [if_neg hcond, if_pos hpos]

theorem resolveFileOwners_select_short (cfg : CodeownConfig) (mc : Nat)
    (e2u : List (String × String)) (fp : String) (contribs : List (String × Nat))
    (h : getOverrideOwners cfg fp = none)
    (hne : selectOwners cfg mc e2u contribs ≠ [])
    (hlt : (selectOwners cfg mc e2u contribs).length < getMinOwners cfg) :
    resolveFileOwners cfg mc e2u fp contribs
      = some (supplementOwners (getMinOwners cfg) (getDefaultOwners cfg fp)
          (getProjectOwners cfg) (selectOwners cfg mc e2u contribs)) := by
  rw [resolveFileOwners_no_override cfg mc e2u fp contribs h]
  have hc : ¬ contribs.length = 0 := fun hc =>
    hne (selectOwners_nil_of_contribs_nil cfg mc e2u contribs hc)
  have hv : ¬ (validContribs cfg e2u contribs).length = 0 := fun hv =>
    hne (selectOwners_nil_of_valid_nil cfg mc e2u contribs hv)
  rw [if_neg hc, if_neg hv]
  have hpos : 0 < (selectOwners cfg mc e2u contribs).length :=
    List.length_pos.mpr hne
  have hcond : 0 < (selectOwners cfg mc e2u contribs).length ∧
      (selectOwners cfg mc e2u contribs).length < getMinOwners cfg := ⟨hpos, hlt⟩
  have hsup : 0 < (supplementOwners (getMinOwners cfg) (getDefaultOwners cfg fp)
      (getProjectOwners cfg) (selectOwners cfg mc e2u contribs)).length :=
    lt_of_lt_of_le hpos (supplementOwners_length_ge _ _ _ _)
  simp only [if_pos hcond, if_pos hsup]

/-! ### Claim C5 -/

/-- Claim C5: for a file matching no override, when the tally-based selection
(membership filtering, commit-count sort, `maxOwners` cap, minimum-commits
threshold) yields zero owners, no entry is emitted — even though
`defaultOwnersFor`/`projectOwners` could supply names; supplementation runs
exactly when the selected list is non-empty and shorter than `minOwners`
(when it is non-empty and long enough the selection is emitted untouched). -/
theorem C5_zero_owners_skipped (cfg : CodeownConfig) (mc : Nat)
    (e2u : List (String × String)) (fp : String) (contribs : List (String × Nat))
    (hov : getOverrideOwners cfg fp = none) :
    (selectOwners cfg mc e2u contribs = [] →
      resolveFileOwners cfg mc e2u fp contribs = none)
    ∧ (selectOwners cfg mc e2u contribs ≠ [] →
        getMinOwners cfg ≤ (selectOwners cfg mc e2u contribs).length →
        resolveFileOwners cfg mc e2u fp contribs
          = some (selectOwners cfg mc e2u contribs))
    ∧ (selectOwners cfg mc e2u contribs ≠ [] →
        (selectOwners cfg mc e2u contribs).length < getMinOwners cfg →
        resolveFileOwners cfg mc e2u fp contribs
          = some (supplementOwners (getMinOwners cfg) (getDefaultOwners cfg fp)
              (getProjectOwners cfg) (selectOwners cfg mc e2u contribs))) :=
  ⟨fun hsel => resolveFileOwners_select_nil cfg mc e2u fp contribs hov hsel,
    fun hne hge => resolveFileOwners_select_enough cfg mc e2u fp contribs hov hne hge,
    fun hne hlt => resolveFileOwners_select_short cfg mc e2u fp contribs hov hne hlt⟩

/-- Witness for C5: with project owners configured but a tally whose only
contributor misses the one-commit threshold, the selection is empty and the
file is dropped (`projectOwners` does not rescue it). -/
theorem C5_witness :
    getOverrideOwners { emptyConfig with projectOwners := some ["lead"] } "f.txt" = none
    ∧ selectOwners { emptyConfig with projectOwners := some ["lead"] } 1 []
        [("a@a.com", 0)] = []
    ∧ resolveFileOwners { emptyConfig with projectOwners := some ["lead"] } 1 []
        "f.txt" [("a@a.com", 0)] = none :=
  ⟨by decide, by decide,
    (C5_zero_owners_skipped { emptyConfig with projectOwners := some ["lead"] } 1 []
      "f.txt" [("a@a.com", 0)] (by decide)).1 (by decide)⟩

/-! ### Claim C3 -/

/-- Claim C3 counterexample: with the default `maxOwners` of 3, a configured
override of four owners is emitted verbatim — the emitted entry has 4 > 3
owners, refuting the cap for override entries. -/
theorem C3_counterexample :
    (FileEntry.mk "a.txt" ["o1", "o2", "o3", "o4"]) ∈ computeFileOwners
      { emptyConfig with overrides := some [("a.txt", ["o1", "o2", "o3", "o4"])] } 1 []
      [("a.txt", [("z@z.com", 1)])] []
    ∧ getMaxOwners { emptyConfig with overrides := some [("a.txt", ["o1", "o2", "o3", "o4"])] } = 3
    ∧ 3 < (FileEntry.mk "a.txt" ["o1", "o2", "o3", "o4"]).owners.length := by
  refine ⟨by decide, by decide, by decide⟩

theorem resolveFileOwners_length_le (cfg : CodeownConfig) (mc : Nat)
    (e2u : List (String × String)) (fp : String) (contribs : List (String × Nat))
    (os : List String) (hov : getOverrideOwners cfg fp = none)
    (hres : resolveFileOwners cfg mc e2u fp contribs = some os) :
    os.length ≤ max (getMaxOwners cfg) (getMinOwners cfg) := by
  by_cases hsel : selectOwners cfg mc e2u contribs = []
  · rw [resolveFileOwners_select_nil cfg mc e2u fp contribs hov hsel] at hres
    exact Option.noConfusion hres
  · by_cases hge : getMinOwners cfg ≤ (selectOwners cfg mc e2u contribs).length
    · rw [resolveFileOwners_select_enough cfg mc e2u fp contribs hov hsel hge] at hres
      injection hres with hos
      rw [← hos]
      exact le_trans (selectOwners_length_le cfg mc e2u contribs) (le_max_left _ _)
    · have hlt : (selectOwners cfg mc e2u contribs).length < getMinOwners cfg :=
        lt_of_not_le hge
      rw [resolveFileOwners_select_short cfg mc e2u fp contribs hov hsel hlt] at hres
      injection hres with hos
      rw [← hos]
      exact le_trans (supplementOwners_length_le _ _ _ _ hlt) (le_max_right _ _)

/-- Claim C3 (amended): a tally-derived entry (no override for its path) has at
most `max maxOwners() minOwners()` owners — hence at most `maxOwners()`
whenever `minOwners() ≤ maxOwners()` — while an entry whose path matches an
override carries the configured override list verbatim, whose length is not
capped by `maxOwners()`. -/
theorem C3_owner_cap (cfg : CodeownConfig) (mc : Nat) (e2u : List (String × String))
    (fileStats : List (String × List (String × Nat))) (allFiles : List String)
    (e : FileEntry) (hmem : e ∈ computeFileOwners cfg mc e2u fileStats allFiles) :
    (getOverrideOwners cfg e.filepath = none →
      e.owners.length ≤ max (getMaxOwners cfg) (getMinOwners cfg))
    ∧ (∀ ov, getOverrideOwners cfg e.filepath = some ov → e.owners = ov) := by
  unfold computeFileOwners at hmem
  simp only [List.mem_append, List.mem_filterMap] at hmem
  constructor
  · intro hov
    rcases hmem with ⟨a, _, hmap⟩ | hsecond
    · rcases Option.map_eq_some'.mp hmap with ⟨os, hrs, hmk⟩
      have hfp : e.filepath = a.1 := by rw [← hmk]
      have hos : e.owners = os := by rw [← hmk]
      rw [hfp] at hov
      rw [hos]
      exact resolveFileOwners_length_le cfg mc e2u a.1 a.2 os hov hrs
    · rcases hx : cfg.overrides with _ | ovr
      · rw [hx] at hsecond
        simp at hsecond
      · rw [hx] at hsecond
        simp only [List.mem_filterMap] at hsecond
        rcases hsecond with ⟨fp, _, hmap⟩
        by_cases hin : (List.lookup fp fileStats).isSome
        · rw [if_pos hin] at hmap
          exact absurd hmap (by simp)
        · rw [if_neg hin] at hmap
          rcases Option.map_eq_some'.mp hmap with ⟨os, hrs, hmk⟩
          have hfp : e.filepath = fp := by rw [← hmk]
          rw [hfp] at hov
          rw [hov] at hrs
          exact Option.noConfusion hrs
  · intro ov hov
    rcases hmem with ⟨a, _, hmap⟩ | hsecond
    · rcases Option.map_eq_some'.mp hmap with ⟨os, hrs, hmk⟩
      have hfp : e.filepath = a.1 := by rw [← hmk]
      have hos : e.owners = os := by rw [← hmk]
      rw [hfp] at hov
      rw [resolveFileOwners_override cfg mc e2u a.1 ov a.2 hov] at hrs
      injection hrs with hx
      rw [hos, hx]
    · rcases hx : cfg.overrides with _ | ovr
      · rw [hx] at hsecond
        simp at hsecond
      · rw [hx] at hsecond
        simp only [List.mem_filterMap] at hsecond
        rcases hsecond with ⟨fp, _, hmap⟩
        by_cases hin : (List.lookup fp fileStats).isSome
        · rw [if_pos hin] at hmap
          exact absurd hmap (by simp)
        · rw [if_neg hin] at hmap
          rcases Option.map_eq_some'.mp hmap with ⟨os, hrs, hmk⟩
          have hfp : e.filepath = fp := by rw [← hmk]
          have hos : e.owners = os := by rw [← hmk]
          rw [hfp] at hov
          rw [hov] at hrs
          injection hrs with hx2
          rw [hos, ← hx2]

/-- Witness for the amended C3: a tally entry with one qualifying contributor
under the default configuration is emitted with 1 ≤ max 3 1 owners, and an
override entry carries its configured list. -/
theorem C3_witness :
    (FileEntry.mk "f.txt" ["a"]) ∈ computeFileOwners emptyConfig 1 []
      [("f.txt", [("a@a.com", 2)])] []
    ∧ (FileEntry.mk "f.txt" ["a"]).owners.length
        ≤ max (getMaxOwners emptyConfig) (getMinOwners emptyConfig) :=
  ⟨by decide,
    (C3_owner_cap emptyConfig 1 [] [("f.txt", [("a@a.com", 2)])] []
      (FileEntry.mk "f.txt" ["a"]) (by decide)).1 (by decide)⟩

/-! ### Duplicate-freedom lemmas (claim C2) -/

theorem selectOwners_nodup (cfg : CodeownConfig) (mc : Nat)
    (e2u : List (String × String)) (contribs : List (String × Nat))
    (h : (contribs.map (fun p => getUsername e2u p.1)).Nodup) :
    (selectOwners cfg mc e2u contribs).Nodup := by
  unfold selectOwners
  have h1 : ((contribs.filter fun ec =>
      shouldIncludeContributor cfg ec.1 (getUsername e2u ec.1)).map
        (fun p => getUsername e2u p.1)).Nodup :=
    List.Nodup.sublist ((List.filter_sublist contribs).map _) h
  have h2 : ((validContribs cfg e2u contribs).map (fun p => getUsername e2u p.1)).Nodup := by
    have hperm : ((validContribs cfg e2u contribs).map (fun p => getUsername e2u p.1)).Perm
        ((contribs.filter fun ec =>
          shouldIncludeContributor cfg ec.1 (getUsername e2u ec.1)).map
            (fun p => getUsername e2u p.1)) :=
      (sortByCmp_perm _ _).map _
    exact hperm.nodup_iff.mpr h1
  have hsub : List.Sublist (((validContribs cfg e2u contribs).take (getMaxOwners cfg)).filter
      (fun p => decide (mc ≤ p.2))) (validContribs cfg e2u contribs) :=
    List.Sublist.trans (List.filter_sublist _) (List.take_sublist _ _)
  exact List.Nodup.sublist (hsub.map _) h2

theorem addDefaults_nodup_inv (m : Nat) :
    ∀ (ds owners set : List String), owners.Nodup → (∀ x, x ∈ set ↔ x ∈ owners) →
      (addDefaults m owners set ds).1.Nodup
      ∧ (∀ x, x ∈ (addDefaults m owners set ds).2 ↔ x ∈ (addDefaults m owners set ds).1)
  | [], owners, set, hnd, hinv => by
    unfold addDefaults
    exact ⟨hnd, hinv⟩
  | d :: ds, owners, set, hnd, hinv => by
    unfold addDefaults
    split
    · exact addDefaults_nodup_inv m ds owners set hnd hinv
    · rename_i hd
      have hdset : d ∉ set := by simpa using hd
      have hdown : d ∉ owners := fun hmem => hdset ((hinv d).mpr hmem)
      have hnd2 : (owners ++ [d]).Nodup := by
        simp [List.nodup_append, hnd, hdown]
      have hinv2 : ∀ x, x ∈ set ++ [d] ↔ x ∈ owners ++ [d] := by
        intro x
        simp [hinv x]
      split
      · exact ⟨hnd2, hinv2⟩
      · exact addDefaults_nodup_inv m ds (owners ++ [d]) (set ++ [d]) hnd2 hinv2

theorem addProject_nodup (m : Nat) :
    ∀ (ps owners set : List String), owners.Nodup → ps.Nodup →
      (∀ q ∈ ps, q ∉ set → q ∉ owners) →
      (addProject m owners set ps).Nodup
  | [], owners, set, hnd, _, _ => by
    unfold addProject
    exact hnd
  | p :: ps, owners, set, hnd, hps, h => by
    unfold addProject
    split
    · exact addProject_nodup m ps owners set hnd (List.Nodup.of_cons hps)
        (fun q hq hqs => h q (List.mem_cons_of_mem p hq) hqs)
    · rename_i hp
      have hpset : p ∉ set := by simpa using hp
      have hpown : p ∉ owners := h p (List.mem_cons_self p ps) hpset
      have hnd2 : (owners ++ [p]).Nodup := by
        simp [List.nodup_append, hnd, hpown]
      split
      · exact hnd2
      · refine addProject_nodup m ps (owners ++ [p]) set hnd2 (List.Nodup.of_cons hps) ?_
        intro q hq hqs
        have hq1 : q ∉ owners := h q (List.mem_cons_of_mem p hq) hqs
        have hq2 : q ≠ p := fun hEq => (List.nodup_cons.mp hps).1 (hEq ▸ hq)
        simp [hq1, hq2]

theorem supplementOwners_nodup (m : Nat) (defaults : Option (List String))
    (projectOwners owners : List String) (hnd : owners.Nodup)
    (hpo : projectOwners.Nodup) :
    (supplementOwners m defaults projectOwners owners).Nodup := by
  have hkey : ∀ pr : List String × List String,
      pr.1.Nodup → (∀ x, x ∈ pr.2 ↔ x ∈ pr.1) →
      (if pr.1.length < m ∧ projectOwners.length > 0 then
        addProject m pr.1 pr.2 projectOwners else pr.1).Nodup := by
    intro pr hprnd hprinv
    split
    · exact addProject_nodup m projectOwners pr.1 pr.2 hprnd hpo
        (fun q _ hqs hqo => hqs ((hprinv q).mpr hqo))
    · exact hprnd
  unfold supplementOwners
  cases defaults with
  | none => exact hkey (owners, owners) hnd (fun x => Iff.rfl)
  | some ds =>
    show (if (if ds.length > 0 then addDefaults m owners owners ds
          else (owners, owners)).1.length < m ∧ projectOwners.length > 0 then
        addProject m
          (if ds.length > 0 then addDefaults m owners owners ds else (owners, owners)).1
          (if ds.length > 0 then addDefaults m owners owners ds else (owners, owners)).2
          projectOwners
      else (if ds.length > 0 then addDefaults m owners owners ds
        else (owners, owners)).1).Nodup
    by_cases hdl : ds.length > 0
    · rw [if_pos hdl]
      have h2 := addDefaults_nodup_inv m ds owners owners hnd (fun x => Iff.rfl)
      exact hkey _ h2.1 h2.2
    · rw [if_neg hdl]
      exact hkey (owners, owners) hnd (fun x => Iff.rfl)

theorem resolveFileOwners_nodup (cfg : CodeownConfig) (mc : Nat)
    (e2u : List (String × String)) (fp : String) (contribs : List (String × Nat))
    (os : List String)
    (husers : (contribs.map (fun p => getUsername e2u p.1)).Nodup)
    (hpo : (getProjectOwners cfg).Nodup)
    (hovnd : ∀ ov, getOverrideOwners cfg fp = some ov → ov.Nodup)
    (hres : resolveFileOwners cfg mc e2u fp contribs = some os) : os.Nodup := by
  cases hx : getOverrideOwners cfg fp with
  | some ov =>
    rw [resolveFileOwners_override cfg mc e2u fp ov contribs hx] at hres
    injection hres with h2
    exact h2 ▸ hovnd ov hx
  | none =>
    by_cases hsel : selectOwners cfg mc e2u contribs = []
    · rw [resolveFileOwners_select_nil cfg mc e2u fp contribs hx hsel] at hres
      exact Option.noConfusion hres
    · by_cases hge : getMinOwners cfg ≤ (selectOwners cfg mc e2u contribs).length
      · rw [resolveFileOwners_select_enough cfg mc e2u fp contribs hx hsel hge] at hres
        injection hres with h2
        exact h2 ▸ selectOwners_nodup cfg mc e2u contribs husers
      · have hlt := lt_of_not_le hge
        rw [resolveFileOwners_select_short cfg mc e2u fp contribs hx hsel hlt] at hres
        injection hres with h2
        exact h2 ▸ supplementOwners_nodup _ _ _ _
          (selectOwners_nodup cfg mc e2u contribs husers) hpo

/-! ### Claim C2 -/

/-- Claim C2 counterexample: with `minOwners = 3` and the configured
`projectOwners = ["x", "x"]`, a file whose tally selects only `alice` is
emitted as `["alice", "x", "x"]` — the project-owner supplementation loop
never records pushed names in its seen-set, so it adds `"x"` although `"x"`
is already present, and the emitted entry has duplicate identities. -/
theorem C2_counterexample :
    (FileEntry.mk "f.txt" ["alice", "x", "x"]) ∈ computeFileOwners
      { emptyConfig with minOwners := some 3, projectOwners := some ["x", "x"] } 1 []
      [("f.txt", [("alice@a.com", 1)])] []
    ∧ ¬ (FileEntry.mk "f.txt" ["alice", "x", "x"]).owners.Nodup := by
  refine ⟨by decide, by decide⟩

/-- Claim C2 (amended): an emitted entry's owner sequence has no duplicate
identities provided the distinct tally emails of its file derive pairwise
distinct usernames, the configured `projectOwners` list is itself
duplicate-free, and every configured override list is duplicate-free.
Supplementation from default owners never adds a present name
unconditionally; supplementation from project owners checks only the names
present before project-owner supplementation, so it needs the
`projectOwners` proviso. -/
theorem C2_no_duplicates (cfg : CodeownConfig) (mc : Nat)
    (e2u : List (String × String)) (fileStats : List (String × List (String × Nat)))
    (allFiles : List String) (e : FileEntry)
    (hmem : e ∈ computeFileOwners cfg mc e2u fileStats allFiles)
    (husers : ∀ entry ∈ fileStats,
      ((entry.2.map (fun p => getUsername e2u p.1)).Nodup : Prop))
    (hpo : (getProjectOwners cfg).Nodup)
    (hovnd : ∀ ov, getOverrideOwners cfg e.filepath = some ov → ov.Nodup) :
    e.owners.Nodup := by
  unfold computeFileOwners at hmem
  simp only [List.mem_append, List.mem_filterMap] at hmem
  rcases hmem with ⟨a, ha, hmap⟩ | hsecond
  · rcases Option.map_eq_some'.mp hmap with ⟨os, hrs, hmk⟩
    have hfp : e.filepath = a.1 := by rw [← hmk]
    have hos : e.owners = os := by rw [← hmk]
    rw [hfp] at hovnd
    rw [hos]
    exact resolveFileOwners_nodup cfg mc e2u a.1 a.2 os (husers a ha) hpo hovnd hrs
  · rcases hx : cfg.overrides with _ | ovr
    · rw [hx] at hsecond
      simp at hsecond
    · rw [hx] at hsecond
      simp only [List.mem_filterMap] at hsecond
      rcases hsecond with ⟨fp, _, hmap⟩
      by_cases hin : (List.lookup fp fileStats).isSome
      · rw [if_pos hin] at hmap
        exact absurd hmap (by simp)
      · rw [if_neg hin] at hmap
        rcases Option.map_eq_some'.mp hmap with ⟨os, hrs, hmk⟩
        have hfp : e.filepath = fp := by rw [← hmk]
        have hos : e.owners = os := by rw [← hmk]
        rw [hos]
        exact hovnd os (by rw [hfp]; exact hrs)

/-- Witness for the amended C2: one contributor plus a duplicate-free
`projectOwners = ["lead"]` under `minOwners = 2` emits `["alice", "lead"]`,
which is duplicate-free. -/
theorem C2_witness :
    (FileEntry.mk "f.txt" ["alice", "lead"]) ∈ computeFileOwners
      { emptyConfig with minOwners := some 2, projectOwners := some ["lead"] } 1 []
      [("f.txt", [("alice@a.com", 4)])] []
    ∧ (FileEntry.mk "f.txt" ["alice", "lead"]).owners.Nodup :=
  ⟨by decide,
    C2_no_duplicates
      { emptyConfig with minOwners := some 2, projectOwners := some ["lead"] } 1 []
      [("f.txt", [("alice@a.com", 4)])] [] (FileEntry.mk "f.txt" ["alice", "lead"])
      (by decide) (by decide) (by decide)
      (fun ov h => Option.noConfusion h)⟩

/-! ### Claim C4 -/

theorem lexCmpChars_le_iff : ∀ as bs : List Char,
    lexCmpChars as bs ≤ 0 ↔ ¬ List.Lex (· < ·) bs as
  | [], [] => by
    simp only [lexCmpChars, le_refl, true_iff]
    intro h
    cases h
  | [], b :: bs => by
    simp only [lexCmpChars]
    constructor
    · intro _ h
      cases h
    · intro _
      norm_num
  | a :: as, [] => by
    simp only [lexCmpChars]
    constructor
    · intro h
      norm_num at h
    · intro h
      exact absurd List.Lex.nil h
  | a :: as, b :: bs => by
    simp only [lexCmpChars]
    by_cases hab : a < b
    · rw [if_pos hab]
      constructor
      · intro _ h
        cases h with
        | cons h2 => exact absurd hab (lt_irrefl _)
        | rel h2 => exact absurd h2 (asymm hab)
      · intro _
        norm_num
    · rw [if_neg hab]
      by_cases hba : b < a
      · rw [if_pos hba]
        constructor
        · intro h
          norm_num at h
        · intro h
          exact absurd (List.Lex.rel hba) h
      · rw [if_neg hba]
        have heq : a = b := le_antisymm (not_lt.mp hba) (not_lt.mp hab)
        subst heq
        rw [lexCmpChars_le_iff as bs]
        constructor
        · intro h hlex
          cases hlex with
          | cons h2 => exact h h2
          | rel h2 => exact absurd h2 hab
        · intro h hlex
          exact h (List.Lex.cons hlex)

theorem lexCmp_le_iff (a b : String) : lexCmp a b ≤ 0 ↔ a ≤ b := by
  have h1 : a.toList ≤ b.toList ↔ ¬ List.Lex (· < ·) b.toList a.toList := not_lt.symm
  rw [String.le_iff_toList_le, h1]
  exact lexCmpChars_le_iff a.toList b.toList

/-- Claim C4 counterexample: two runs on identical inputs (same file set,
tallies and configuration) but different wall-clock times produce different
output text — the header embeds the generation date and time, so byte-identical
re-runs are not guaranteed by identical inputs alone. -/
theorem C4_counterexample :
    generateOutput "2024-01-01" "10:00:00" "2023-01-01" 1 emptyConfig [] [] [] lexCmp
      ≠ generateOutput "2024-01-01" "10:00:01" "2023-01-01" 1 emptyConfig [] [] [] lexCmp := by
  decide

/-- Claim C4 (amended): the emitted per-file entries (the sorted sequence that
`generateOutput` renders) are in lexicographic order on file path when the
runtime collator (`localeCompare`, here modelled by `lexCmp`) is lexicographic
comparison; output bytes are a pure function of the inputs together with the
generation timestamp, so two runs agree when the timestamp (and collator) also
agree. -/
theorem C4_sorted_entries (cfg : CodeownConfig) (mc : Nat)
    (e2u : List (String × String)) (fileStats : List (String × List (String × Nat)))
    (allFiles : List String) :
    (sortedFileOwners cfg mc e2u fileStats allFiles lexCmp).Pairwise
      (fun a b => a.filepath ≤ b.filepath) := by
  have h := sortByCmp_pairwise (fun a b : FileEntry => lexCmp a.filepath b.filepath)
    (fun a b => by
      show lexCmp a.filepath b.filepath ≤ 0 ∨ lexCmp b.filepath a.filepath ≤ 0
      rcases le_total a.filepath b.filepath with hle | hle
      · exact Or.inl ((lexCmp_le_iff _ _).mpr hle)
      · exact Or.inr ((lexCmp_le_iff _ _).mpr hle))
    (fun a b c hab hbc => by
      have hab' : lexCmp a.filepath b.filepath ≤ 0 := hab
      have hbc' : lexCmp b.filepath c.filepath ≤ 0 := hbc
      show lexCmp a.filepath c.filepath ≤ 0
      exact (lexCmp_le_iff _ _).mpr
        (le_trans ((lexCmp_le_iff _ _).mp hab') ((lexCmp_le_iff _ _).mp hbc')))
    (computeFileOwners cfg mc e2u fileStats allFiles)
  exact h.imp fun hab => (lexCmp_le_iff _ _).mp hab

/-! ### Claim C8 -/

theorem sumVals_creditOwner : ∀ (s : List (String × Nat)) (u : String),
    sumVals (creditOwner s u) = sumVals s + 1
  | [], u => by simp [creditOwner, sumVals]
  | (k, v) :: rest, u => by
    unfold creditOwner
    split
    · simp only [sumVals, List.map_cons, List.sum_cons]
      omega
    · simp only [sumVals, List.map_cons, List.sum_cons]
      have := sumVals_creditOwner rest u
      unfold sumVals at this
      omega

theorem sumVals_foldl_credit : ∀ (ov : List String) (s : List (String × Nat)),
    sumVals (ov.foldl (fun os owner => creditOwner os (stripAtSign owner)) s)
      = sumVals s + ov.length
  | [], s => by simp
  | o :: ov, s => by
    simp only [List.foldl_cons, List.length_cons]
    rw [sumVals_foldl_credit ov (creditOwner s (stripAtSign o)), sumVals_creditOwner]
    omega

theorem statsStep_totals (cfg : CodeownConfig) (mc : Nat)
    (e2u : List (String × String)) (acc : List (String × Nat) × Nat)
    (entry : String × List (String × Nat)) :
    (statsStep cfg mc e2u acc entry).2
      = acc.2 + (if statsCounted cfg mc e2u entry then 1 else 0)
    ∧ sumVals (statsStep cfg mc e2u acc entry).1
      = sumVals acc.1 + (if statsCounted cfg mc e2u entry then statsCredits cfg entry else 0) := by
  unfold statsStep statsCounted statsCredits
  cases hov : getOverrideOwners cfg entry.1 with
  | some ov =>
    simp [sumVals_foldl_credit]
  | none =>
    by_cases hlen : entry.2.length = 0
    · simp [hlen]
    · cases hvc : validContribs cfg e2u entry.2 with
      | nil => simp [hlen, hvc]
      | cons hd tl =>
        obtain ⟨email, commitCount⟩ := hd
        by_cases hcc : mc ≤ commitCount
        · simp [hlen, hvc, hcc, sumVals_creditOwner]
        · simp [hlen, hvc, hcc]

theorem getOwnershipStats_foldl (cfg : CodeownConfig) (mc : Nat)
    (e2u : List (String × String)) :
    ∀ (fs : List (String × List (String × Nat))) (acc : List (String × Nat) × Nat),
    (fs.foldl (statsStep cfg mc e2u) acc).2
      = acc.2 + (fs.filter (statsCounted cfg mc e2u)).length
    ∧ sumVals (fs.foldl (statsStep cfg mc e2u) acc).1
      = sumVals acc.1 + ((fs.filter (statsCounted cfg mc e2u)).map (statsCredits cfg)).sum
  | [], acc => by simp
  | entry :: fs, acc => by
    simp only [List.foldl_cons, List.filter_cons]
    have hstep := statsStep_totals cfg mc e2u acc entry
    have hrec := getOwnershipStats_foldl cfg mc e2u fs (statsStep cfg mc e2u acc entry)
    by_cases hcnt : statsCounted cfg mc e2u entry = true
    · simp only [hcnt, if_true] at hstep ⊢
      simp only [List.length_cons, List.map_cons, List.sum_cons]
      constructor
      · rw [hrec.1, hstep.1]
        omega
      · rw [hrec.2, hstep.2]
        omega
    · have hcnt' : statsCounted cfg mc e2u entry = false := by
        cases h : statsCounted cfg mc e2u entry with
        | false => rfl
        | true => exact absurd h hcnt
      simp only [hcnt', Bool.false_eq_true, if_false] at hstep ⊢
      constructor
      · rw [hrec.1, hstep.1]
        omega
      · rw [hrec.2, hstep.2]
        omega

/-- Claim C8 counterexample: for the override file `a.txt` with configured
owners `["o1", "o2"]`, `getOwnershipStats` credits the second listed owner
`o2` with one file as well — not only the first listed owner — while
`totalFiles` counts the file once. -/
theorem C8_counterexample :
    List.lookup "o2" (getOwnershipStats
      { emptyConfig with overrides := some [("a.txt", ["o1", "o2"])] } 1 []
      [("a.txt", [("z@z.com", 1)])]).stats = some 1
    ∧ (getOwnershipStats
      { emptyConfig with overrides := some [("a.txt", ["o1", "o2"])] } 1 []
      [("a.txt", [("z@z.com", 1)])]).totalFiles = 1 := by
  refine ⟨by decide, by decide⟩

/-- Claim C8 (amended): `totalFiles` counts each qualifying `fileStats` entry
exactly once (override files always qualify; tally files qualify when their
top valid contributor meets the commit threshold; files emitted only by the
override second pass are absent from `fileStats` and are not counted); but the
number of owner credits handed out per file is the full override list length
for override files, and exactly one (the first listed owner) otherwise. -/
theorem C8_stats_attribution (cfg : CodeownConfig) (mc : Nat)
    (e2u : List (String × String)) (fileStats : List (String × List (String × Nat))) :
    (getOwnershipStats cfg mc e2u fileStats).totalFiles
      = (fileStats.filter (statsCounted cfg mc e2u)).length
    ∧ sumVals (getOwnershipStats cfg mc e2u fileStats).stats
      = ((fileStats.filter (statsCounted cfg mc e2u)).map (statsCredits cfg)).sum := by
  have h := getOwnershipStats_foldl cfg mc e2u fileStats ([], 0)
  constructor
  · show (fileStats.foldl (statsStep cfg mc e2u) ([], 0)).2 = _
    rw [h.1]
    simp
  · show sumVals (fileStats.foldl (statsStep cfg mc e2u) ([], 0)).1 = _
    rw [h.2]
    simp [sumVals]

/-! ### Claim C9 -/

theorem analyzeStep_queried (histories : String → List (String × String))
    (filepath : String) (st : RunState) :
    (analyzeStep histories filepath st).queried = st.queried ++ [filepath] := by
  unfold analyzeStep
  dsimp only
  split <;> rfl

theorem analyzeRepositoryGo_aborted (k : Nat) (histories : String → List (String × String)) :
    ∀ (files : List String) (i : Nat) (st : RunState), i ≤ k → k - i < files.length →
      (analyzeRepositoryGo (some k) histories files i st).1
          = Except.error "Operation aborted"
      ∧ (analyzeRepositoryGo (some k) histories files i st).2.queried
          = st.queried ++ files.take (k - i)
  | [], i, st, _, hlen => by simp at hlen
  | fp :: rest, i, st, hik, hlen => by
    unfold analyzeRepositoryGo
    by_cases hab : isAborted (some k) i = true
    · rw [if_pos hab]
      have hki : k ≤ i := by simpa [isAborted] using hab
      have hzero : k - i = 0 := by omega
      rw [hzero]
      exact ⟨rfl, by simp⟩
    · rw [if_neg hab]
      have hki : i < k := by
        rcases Nat.lt_or_ge i k with h | h
        · exact h
        · exact absurd (by simp [isAborted]; omega) hab
      have hlen2 : k - (i + 1) < rest.length := by
        simp only [List.length_cons] at hlen
        omega
      have hrec := analyzeRepositoryGo_aborted k histories rest (i + 1)
        (analyzeStep histories fp st) (by omega) hlen2
      refine ⟨hrec.1, ?_⟩
      rw [hrec.2, analyzeStep_queried]
      have hsucc : k - i = (k - (i + 1)) + 1 := by omega
      rw [hsucc, List.take_succ_cons, List.append_assoc, List.singleton_append]

/-- Claim C9: once cancellation is requested (at step `k`, before all files are
processed), the per-file version-control queries stop — exactly the first `k`
files are ever queried, the run ends in the silent aborted outcome (distinct
from the complete and error outcomes), and the output file is not written. -/
theorem C9_cancellation (k : Nat) (histories : String → List (String × String))
    (files : List String) (cfg : CodeownConfig) (mc : Nat)
    (cmp : String → String → Int) (hk : k < files.length) :
    runAnalysisFlow (some k) histories files cfg mc cmp
        = (AppOutcome.abortedSilently, false)
    ∧ (analyzeRepositoryGo (some k) histories files 0 initRunState).2.queried
        = files.take k := by
  have h := analyzeRepositoryGo_aborted k histories files 0 initRunState
    (Nat.zero_le k) (by simpa using hk)
  constructor
  · unfold runAnalysisFlow
    simp [h.1]
  · rw [h.2]
    simp [initRunState]

/-- Witness for C9 at the spec's scenario: cancellation requested after 2 of
10 files — the run ends in the silent aborted outcome, nothing is written, and
only the first two files were ever queried. -/
theorem C9_witness :
    2 < (["f1", "f2", "f3", "f4", "f5", "f6", "f7", "f8", "f9", "f10"] : List String).length
    ∧ runAnalysisFlow (some 2) (fun _ => [("a@a.com", "Alice")])
        ["f1", "f2", "f3", "f4", "f5", "f6", "f7", "f8", "f9", "f10"] emptyConfig 1 lexCmp
        = (AppOutcome.abortedSilently, false)
    ∧ (analyzeRepositoryGo (some 2) (fun _ => [("a@a.com", "Alice")])
        ["f1", "f2", "f3", "f4", "f5", "f6", "f7", "f8", "f9", "f10"] 0 initRunState).2.queried
        = (["f1", "f2", "f3", "f4", "f5", "f6", "f7", "f8", "f9", "f10"] : List String).take 2 :=
  ⟨by decide,
    (C9_cancellation 2 (fun _ => [("a@a.com", "Alice")])
      ["f1", "f2", "f3", "f4", "f5", "f6", "f7", "f8", "f9", "f10"] emptyConfig 1 lexCmp
      (by decide)).1,
    (C9_cancellation 2 (fun _ => [("a@a.com", "Alice")])
      ["f1", "f2", "f3", "f4", "f5", "f6", "f7", "f8", "f9", "f10"] emptyConfig 1 lexCmp
      (by decide)).2⟩
